import Mathlib

/-!
Shallow embedding of the idia-core confidential-transaction code
(`idia-core/src/crypto/*.rs`, `idia-core/src/types/*.rs`,
`idia-core/src/wallet/transaction_builder.rs`, `idia-core/src/explorer/metrics.rs`).

The Ristretto group used by the source is cyclic of prime order ℓ, so we
coordinatize it by discrete logarithm with respect to the base point `B`:
a point is an element of `ZMod ℓ` and `B = 1`.  Scalars are likewise `ZMod ℓ`.
The second Pedersen generator `H` (`hash_from_bytes("Idia_H")`) has an unknown
discrete log; definitions take it as a parameter `h` (so `H = h·B`).
Compressed encodings (`CompressedRistretto`) are modeled as `Option` of a
point: `some p` is the canonical encoding of `p` (compression is injective and
`decompress ∘ compress = some`), `none` stands for an invalid encoding.
The merlin Fiat–Shamir transcript is modeled as the list of operations
performed on it (labeled appends and challenge extractions, which both mutate
the sponge state); the challenge extractor is an arbitrary function of that
history, taken as a parameter `F`.
-/

deriving instance DecidableEq for Except

namespace Idia

/-- The order ℓ of the Ristretto group (= the order of the curve25519 scalar field). -/
def L : ℕ := 7237005577332262213973186563042994240857116359379907606001950938285454250989

/-- Model of `curve25519_dalek::scalar::Scalar`: integers mod ℓ. -/
abbrev Sc : Type := ZMod L

/-- Model of `curve25519_dalek::ristretto::RistrettoPoint`, coordinatized by discrete log
w.r.t. the base point. -/
abbrev Pt : Type := ZMod L

/-- Model of `RISTRETTO_BASEPOINT_POINT` in discrete-log coordinates. -/
def B : Pt := 1

/-- Model of `CompressedRistretto`: `some p` is the canonical encoding of `p`,
`none` an invalid encoding. -/
abbrev CPt : Type := Option Pt

/-- Model of `RistrettoPoint::compress`. -/
def compress (p : Pt) : CPt := some p

/-- Model of `CompressedRistretto::decompress`. -/
def decompress (c : CPt) : Option Pt := c

/-- Model of `CryptoError` from `crypto/mod.rs`. -/
inductive CryptoError : Type where
  | InvalidKey : CryptoError
  | SignatureVerification : CryptoError
  | RangeProofVerification : CryptoError
  | InvalidAmount : CryptoError
  | InvalidCommitment : CryptoError
deriving DecidableEq

/-- Model of `PedersenCommitment` (`crypto/pedersen.rs`): a compressed group element. -/
structure PedersenCommitment : Type where
  pt : CPt
deriving DecidableEq

/-- Model of `PedersenCommitment::with_blinding`: `value·B + blinding·H`, compressed.
`h` is the discrete log of the generator `H`; `value` is the `u64` argument
(embedded as a natural number, reduced mod ℓ by `Scalar::from`). -/
def PedersenCommitment.with_blinding (h : Sc) (value : ℕ) (blinding : Sc) :
    PedersenCommitment :=
  ⟨compress ((value : Sc) * B + blinding * h)⟩

/-- Model of `PedersenCommitment::verify`: recommit and compare encodings. -/
def PedersenCommitment.isOpening (h : Sc) (c : PedersenCommitment) (value : ℕ)
    (blinding : Sc) : Bool :=
  decide (c = PedersenCommitment.with_blinding h value blinding)

/-- Model of `PedersenCommitment::add`: decompress both points (error on an invalid
encoding) and add. -/
def PedersenCommitment.add (c₁ c₂ : PedersenCommitment) :
    Except CryptoError PedersenCommitment :=
  match decompress c₁.pt with
  | none => .error .InvalidCommitment
  | some p₁ =>
    match decompress c₂.pt with
    | none => .error .InvalidCommitment
    | some p₂ => .ok ⟨compress (p₁ + p₂)⟩

/-- Model of `StealthAddress` (`crypto/stealth_address.rs`), with the view and spend
key pairs inlined. -/
structure StealthAddress : Type where
  view_private : Sc
  view_public : Pt
  spend_private : Sc
  spend_public : Pt

/-- Model of `StealthAddress::new` applied to the two sampled scalars. -/
def StealthAddress.new (a s : Sc) : StealthAddress :=
  ⟨a, B * a, s, B * s⟩

/-- Model of `StealthAddress::generate_one_time_key`.  The source multiplies the
shared-secret *point* `r·A` by the basepoint; that point-as-scalar coercion is
modeled by the parameter `f` (the same expression appears in `scan_one_time_key`,
so the same `f` is used there). -/
def StealthAddress.generate_one_time_key (f : Pt → Sc) (addr : StealthAddress)
    (r : Sc) : Pt × Pt :=
  let R := B * r
  let shared_secret := r * addr.view_public
  (R, addr.spend_public + f shared_secret * B)

/-- Model of `StealthAddress::scan_one_time_key`. -/
def StealthAddress.scan_one_time_key (f : Pt → Sc) (addr : StealthAddress)
    (R P : Pt) : Bool :=
  let shared_secret := addr.view_private * R
  decide (P = addr.spend_public + f shared_secret * B)

/-- Model of `StealthAddress::derive_private_key`: `spend_private + shared_secret`,
with the same point-as-scalar coercion `f`. -/
def StealthAddress.derive_private_key (f : Pt → Sc) (addr : StealthAddress)
    (R : Pt) : Sc :=
  addr.spend_private + f (addr.view_private * R)

/-- One operation on a merlin transcript: a labeled message append
(label `0` = `"L"`, label `1` = `"point"`) or a challenge extraction
(`challenge_bytes`, which also mutates the sponge state). -/
inductive TEntry : Type where
  | app : ℕ → Pt → TEntry
  | chal : TEntry
deriving DecidableEq

/-- Model of `KeyImage` (`crypto/ring_signature.rs`): a compressed point. -/
structure KeyImage : Type where
  pt : CPt
deriving DecidableEq

/-- Model of `RingSignature` (`crypto/ring_signature.rs`). -/
structure RingSignature : Type where
  c : List Sc
  r : List (List Sc)
  key_image : KeyImage
deriving DecidableEq

/-- The `for i in 1..n` loop of `RingSignature::sign`.  `is` is the list of
remaining loop indices, `rands` the random scalars drawn in loop order
(`rands[i-1]` at loop index `i`), `F` the transcript challenge extractor. -/
def signLoop (F : List TEntry → Sc) (ring : List Pt) (π n : ℕ) (rands : List Sc) :
    List ℕ → List Sc → List (List Sc) → List TEntry →
    List Sc × List (List Sc) × List TEntry
  | [], c, r, t => (c, r, t)
  | i :: rest, c, r, t =>
    let idx := (π + i) % n
    let rnd := rands.getD (i - 1) 0
    let r₁ := r.set idx [rnd]
    let point := B * rnd + ring.getD idx 0 * c.getD idx 0
    let t₁ := t ++ [TEntry.app 1 point]
    if idx ≠ π then
      signLoop F ring π n rands rest (c.set ((idx + 1) % n) (F t₁)) r₁
        (t₁ ++ [TEntry.chal])
    else
      signLoop F ring π n rands rest c r₁ t₁

/-- Model of `RingSignature::sign`.  `alpha` and `rands` are the scalars drawn from the
RNG (`alpha` for the real index, `rands` in the completion loop). -/
def RingSignature.sign (F : List TEntry → Sc) (secret_key : Sc)
    (key_image : KeyImage) (public_keys : List Pt) (real_index : ℕ)
    (alpha : Sc) (rands : List Sc) : Except CryptoError RingSignature :=
  if real_index ≥ public_keys.length then .error .InvalidKey
  else
    let n := public_keys.length
    let c₀ : List Sc := List.replicate n 0
    let r₀ : List (List Sc) := List.replicate n [0]
    let Lpt := B * alpha
    let t₀ : List TEntry := [TEntry.app 0 Lpt]
    let c₁ := c₀.set ((real_index + 1) % n) (F t₀)
    let res := signLoop F public_keys real_index n rands
      (List.range' 1 (n - 1)) c₁ r₀ (t₀ ++ [TEntry.chal])
    let cf := res.1
    let rf := res.2.1.set real_index [alpha - cf.getD real_index 0 * secret_key]
    .ok ⟨cf, rf, key_image⟩

/-- The verification loop of `RingSignature::verify` over the ring indices.
The Rust `self.r[i][0]` indexes the inner vector without a bounds check;
an empty inner vector is an index-out-of-bounds panic, modeled as `none`. -/
def verifyLoop (F : List TEntry → Sc) (sig : RingSignature) (ring : List Pt) :
    List ℕ → List TEntry → Option (Except CryptoError Bool)
  | [], _ => some (.ok true)
  | i :: rest, t =>
    match (sig.r.getD i []).head? with
    | none => none
    | some ri =>
      let point := B * ri + ring.getD i 0 * sig.c.getD i 0
      let t₁ := t ++ [TEntry.app 1 point]
      let expected := F t₁
      if expected ≠ sig.c.getD ((i + 1) % ring.length) 0 then some (.ok false)
      else verifyLoop F sig ring rest (t₁ ++ [TEntry.chal])

/-- Model of `RingSignature::verify`.  `none` models a panic. -/
def RingSignature.verify (F : List TEntry → Sc) (sig : RingSignature)
    (public_keys : List Pt) : Option (Except CryptoError Bool) :=
  if public_keys.length ≠ sig.c.length ∨ public_keys.length ≠ sig.r.length then
    some (.error .SignatureVerification)
  else
    verifyLoop F sig public_keys (List.range public_keys.length) []

/-- Model of `RangeProofWrapper` (`crypto/bulletproof.rs`).  The bulletproofs
`RangeProof` object is opaque to the wrapper; its type is a parameter `RP`. -/
structure RangeProofWrapper (RP : Type) : Type where
  proof : RP
  value : ℕ
  blinding : Sc

/-- Model of `RangeProofWrapper::new` applied to the sampled blinding.  The external
`RangeProof::prove_single` (bulletproofs crate, invoked with 32 bits and a
fresh `"idia-range-proof"` transcript) is the parameter `prove_single`; it
returns a proof and a compressed commitment (the wrapper discards the
latter).  Any prover failure is mapped to `RangeProofVerification`. -/
def RangeProofWrapper.new {RP : Type}
    (prove_single : ℕ → Sc → Except Unit (RP × Pt)) (h : Sc)
    (value : ℕ) (blinding : Sc) :
    Except CryptoError (RangeProofWrapper RP × PedersenCommitment) :=
  let commitment := PedersenCommitment.with_blinding h value blinding
  match prove_single value blinding with
  | .error _ => .error .RangeProofVerification
  | .ok pr => .ok (⟨pr.1, value, blinding⟩, commitment)

/-- Model of `RangeProofWrapper::verify`.  `verify_single` stands for the bulletproofs
verifier on the decompressed commitment; decompression failure is
`InvalidCommitment`, verifier failure `RangeProofVerification`, and success
yields `Ok(true)`. -/
def RangeProofWrapper.verify {RP : Type}
    (verify_single : RP → Pt → Except Unit Unit)
    (w : RangeProofWrapper RP) (commitment : PedersenCommitment) :
    Except CryptoError Bool :=
  match decompress commitment.pt with
  | none => .error .InvalidCommitment
  | some p =>
    match verify_single w.proof p with
    | .error _ => .error .RangeProofVerification
    | .ok _ => .ok true

/-- Model of `RangeProofWrapper::get_value_blinding`. -/
def RangeProofWrapper.get_value_blinding {RP : Type}
    (w : RangeProofWrapper RP) : ℕ × Sc :=
  (w.value, w.blinding)

/-- Model of `Output` (`types/utxo.rs`). -/
structure Output (RP : Type) : Type where
  commitment : PedersenCommitment
  range_proof : RangeProofWrapper RP
  stealth_pubkey : Pt
  tx_pubkey : Pt

/-- Model of `Output::verify`. -/
def Output.verify {RP : Type} (verify_single : RP → Pt → Except Unit Unit)
    (o : Output RP) : Except CryptoError Bool :=
  o.range_proof.verify verify_single o.commitment

/-- Model of `OutputReference` (`types/utxo.rs`); the transaction hash is a 32-byte string. -/
structure OutputReference : Type where
  tx_hash : List ℕ
  output_index : ℕ
deriving DecidableEq

/-- Model of `Input` (`types/transaction.rs`). -/
structure Input : Type where
  ring : List OutputReference
  signature : RingSignature
  key_image : KeyImage
deriving DecidableEq

/-- Model of `Transaction` (`types/transaction.rs`). -/
structure Transaction (RP : Type) : Type where
  version : ℕ
  inputs : List Input
  outputs : List (Output RP)
  fee : ℕ
  timestamp : ℕ

/-- Model of `Transaction::new`; the system-clock timestamp is a parameter. -/
def Transaction.new {RP : Type} (inputs : List Input) (outputs : List (Output RP))
    (fee timestamp : ℕ) : Transaction RP :=
  ⟨1, inputs, outputs, fee, timestamp⟩

/-- The per-output loop of `Transaction::verify`: `if !output.verify()? {
return Ok(false) }`. -/
def checkOutputs {RP : Type} (verify_single : RP → Pt → Except Unit Unit) :
    List (Output RP) → Except CryptoError Bool
  | [] => .ok true
  | o :: rest =>
    match o.verify verify_single with
    | .error e => .error e
    | .ok b => if !b then .ok false else checkOutputs verify_single rest

/-- The duplicate-key-image loop of `Transaction::verify`: insert each
`input.key_image.0` into a set, `Ok(false)` on the first repeat. -/
def hasDupKeyImage : List Input → List CPt → Bool
  | [], _ => false
  | i :: rest, seen =>
    if i.key_image.pt ∈ seen then true
    else hasDupKeyImage rest (i.key_image.pt :: seen)

/-- Model of `Transaction::verify`: range proofs, then (TODO-skipped ring signature
check), then duplicate key images.  The balance check is a TODO in the
source and is absent. -/
def Transaction.verify {RP : Type} (verify_single : RP → Pt → Except Unit Unit)
    (tx : Transaction RP) : Except CryptoError Bool :=
  match checkOutputs verify_single tx.outputs with
  | .error e => .error e
  | .ok false => .ok false
  | .ok true => if hasDupKeyImage tx.inputs [] then .ok false else .ok true

/-- Model of `hash_of` (`types/mod.rs`): SHA-256 of the bincode serialization.
Serialization of these in-memory types cannot fail, so its `unwrap` never
panics; `ser` and `sha` model the two external primitives. -/
def hash_of {α : Type} (sha : List ℕ → List ℕ) (ser : α → List ℕ) (x : α) :
    List ℕ :=
  sha (ser x)

/-- The all-zero 32-byte hash (`[0; 32]`). -/
def zeroHash : List ℕ := List.replicate 32 0

/-- One `chunks(2)` pass of `Block::calculate_merkle_root`: hash each adjacent
pair with one SHA-256 over the concatenation.  The loop body only runs this on
even-length levels (odd levels are padded first), where no trailing singleton
exists. -/
def pairUp (sha : List ℕ → List ℕ) : List (List ℕ) → List (List ℕ)
  | a :: b :: rest => sha (a ++ b) :: pairUp sha rest
  | _ => []

/-- One iteration of the `while hashes.len() > 1` loop: duplicate the last
hash when the level has odd cardinality, then pair up.  (`last().unwrap()`
cannot panic: an odd-length list is nonempty.) -/
def merkleStep (sha : List ℕ → List ℕ) (hs : List (List ℕ)) : List (List ℕ) :=
  if hs.length % 2 ≠ 0 then
    match hs.getLast? with
    | some x => pairUp sha (hs ++ [x])
    | none => pairUp sha hs
  else pairUp sha hs

theorem pairUp_length (sha : List ℕ → List ℕ) :
    ∀ l : List (List ℕ), (pairUp sha l).length = l.length / 2
  | [] => by simp [pairUp]
  | [_] => by simp [pairUp]
  | _ :: _ :: rest => by
    simp only [pairUp, List.length_cons, pairUp_length sha rest]
    omega

theorem merkleStep_length (sha : List ℕ → List ℕ) (hs : List (List ℕ))
    (h : 1 < hs.length) :
    (merkleStep sha hs).length = (hs.length + hs.length % 2) / 2 := by
  unfold merkleStep
  rcases Nat.eq_zero_or_pos (hs.length % 2) with he | ho
  · simp [he, pairUp_length]
  · have hne : hs ≠ [] := by
      intro hnil; rw [hnil] at h; simp at h
    have : hs.length % 2 = 1 := by omega
    rcases List.getLast?_isSome.mpr hne |> Option.isSome_iff_exists.mp with ⟨x, hx⟩
    simp [this, hx, pairUp_length]

/-- The `while hashes.len() > 1` loop of `Block::calculate_merkle_root`. -/
def merkleLoop (sha : List ℕ → List ℕ) (hs : List (List ℕ)) : List (List ℕ) :=
  if h : 1 < hs.length then merkleLoop sha (merkleStep sha hs) else hs
termination_by hs.length
decreasing_by
  rw [merkleStep_length sha hs h]
  omega

/-- Model of `Block::calculate_merkle_root`.  The final `hashes[0]` index is modeled
with `head?` (`none` = panic). -/
def calculate_merkle_root {RP : Type} (sha : List ℕ → List ℕ)
    (txHash : Transaction RP → List ℕ) (transactions : List (Transaction RP)) :
    Option (List ℕ) :=
  if transactions.isEmpty then some zeroHash
  else (merkleLoop sha (transactions.map txHash)).head?

/-- Model of `BlockHeader` (`types/block.rs`). -/
structure BlockHeader : Type where
  version : ℕ
  prev_hash : List ℕ
  merkle_root : List ℕ
  timestamp : ℕ
  height : ℕ
  difficulty : ℕ
  nonce : ℕ

/-- Model of `Block` (`types/block.rs`). -/
structure Block (RP : Type) : Type where
  header : BlockHeader
  transactions : List (Transaction RP)

/-- The per-transaction loop of `Block::verify`. -/
def checkTxs {RP : Type} (verify_single : RP → Pt → Except Unit Unit) :
    List (Transaction RP) → Except CryptoError Bool
  | [] => .ok true
  | tx :: rest =>
    match tx.verify verify_single with
    | .error e => .error e
    | .ok b => if !b then .ok false else checkTxs verify_single rest

/-- Model of `Block::verify`: merkle root, then each transaction (proof-of-work is a
TODO in the source).  `none` models a panic inside `calculate_merkle_root`. -/
def Block.verify {RP : Type} (verify_single : RP → Pt → Except Unit Unit)
    (sha : List ℕ → List ℕ) (txHash : Transaction RP → List ℕ) (b : Block RP) :
    Option (Except CryptoError Bool) :=
  match calculate_merkle_root sha txHash b.transactions with
  | none => none
  | some root =>
    if b.header.merkle_root ≠ root then some (.ok false)
    else some (checkTxs verify_single b.transactions)

/-- Model of `MetricsAggregator` (`explorer/metrics.rs`). -/
structure MetricsAggregator : Type where
  block_count : ℕ
  recent_blocks : List ℕ
  current_difficulty : ℕ
  mempool_size : ℕ
  max_history : ℕ

/-- Model of `NetworkMetrics`; `avg_block_time` is the `Duration` in whole seconds. -/
structure NetworkMetrics : Type where
  block_count : ℕ
  avg_block_time : ℕ
  estimated_hashrate : ℕ
  current_difficulty : ℕ
  mempool_size : ℕ

/-- Model of `recent_blocks.windows(2).map(|w| w[1] - w[0]).sum()`.  Timestamps are
expected nondecreasing; `u64` subtraction is modeled by truncated natural
subtraction. -/
def sumDeltas : List ℕ → ℕ
  | a :: b :: rest => (b - a) + sumDeltas (b :: rest)
  | _ => 0

/-- Model of `MetricsAggregator::get_metrics`.  Note the hashrate estimate divides
`2^32` by the average block time *before* multiplying by the difficulty. -/
def MetricsAggregator.get_metrics (m : MetricsAggregator) : NetworkMetrics :=
  let avg :=
    if 2 ≤ m.recent_blocks.length then
      sumDeltas m.recent_blocks / (m.recent_blocks.length - 1)
    else 0
  let hashrate :=
    if avg ≠ 0 then m.current_difficulty * (2 ^ 32 / avg) else 0
  ⟨m.block_count, avg, hashrate, m.current_difficulty, m.mempool_size⟩

/-- The input-assembly step of `TransactionBuilder::build_transaction`
(lines 66–86) for one selected `(outref, output)` pair: ring = the real
reference alone, key image = the *compressed one-time public key itself*
(`KeyImage(output.stealth_pubkey.compress())`), and a ring signature over the
single-member ring with the derived spend key. -/
def buildInput {RP : Type} (F : List TEntry → Sc) (f : Pt → Sc)
    (addr : StealthAddress) (alpha : Sc) (rands : List Sc)
    (outref : OutputReference) (output : Output RP) :
    Except CryptoError Input :=
  match RingSignature.sign F (addr.derive_private_key f output.tx_pubkey)
      (KeyImage.mk (compress output.stealth_pubkey))
      [output.stealth_pubkey] 0 alpha rands with
  | .error e => .error e
  | .ok sig => .ok ⟨[outref], sig, KeyImage.mk (compress output.stealth_pubkey)⟩

/-! Concrete instantiations of the abstract primitives, used to evaluate the
embedded operations on specific inputs: a bulletproofs verifier that accepts
(as the real verifier does on an honestly generated proof), a prover that
succeeds, and one concrete transcript challenge extractor. -/

/-- A range-proof verifier that accepts, as the bulletproofs verifier does on
an honestly produced proof for its own commitment. -/
def rvAccept : ℕ → Pt → Except Unit Unit := fun _ _ => .ok ()

/-- A prover instance for `RangeProofWrapper.new` that succeeds. -/
def psDemo : ℕ → Sc → Except Unit (ℕ × Pt) := fun _ _ => .ok (0, 0)

/-- A concrete numeric encoding of one transcript entry. -/
def encE : TEntry → ℕ
  | .app l d => 2 + l + 3 * d.val
  | .chal => 1

/-- One concrete transcript challenge extractor: a fold of the operation
history.  Any function of the history is a legitimate instance of the merlin
sponge for evaluating the protocol logic. -/
def chalDemo (ts : List TEntry) : Sc :=
  ((ts.foldl (fun a e => 31 * a + encE e) 7 : ℕ) : Sc)

/-- The signature honestly produced by `RingSignature.sign` under `chalDemo`
on the ring `[3, 4]` with secret key `4` (so `P₁ = 4·B`), real index `1`,
`α = 5` and completion randomness `7`. -/
def c2DemoSig : RingSignature :=
  match RingSignature.sign chalDemo 4 ⟨some 9⟩ [3, 4] 1 5 [7] with
  | .ok s => s
  | .error _ => ⟨[], [], ⟨none⟩⟩

/-- A concrete point-as-scalar coercion for the stealth shared secret. -/
def fZero : Pt → Sc := fun _ => 0

/-- A concrete stealth address (view scalar 2, spend scalar 3). -/
def addrDemo : StealthAddress := StealthAddress.new 2 3

/-- A concrete output: commitment to value 5 with blinding 0, one-time
public key `6`, transaction public key `7`. -/
def outDemo : Output ℕ := ⟨⟨some 5⟩, ⟨0, 5, 0⟩, 6, 7⟩

/-- The input assembled by the builder for `outDemo`. -/
def c3DemoInput : Input :=
  match buildInput chalDemo fZero addrDemo 11 [] ⟨[], 0⟩ outDemo with
  | .ok i => i
  | .error _ => ⟨[], ⟨[], [], ⟨none⟩⟩, ⟨none⟩⟩

/-- A transaction with no inputs, fee 0, and a single output whose commitment
opens to value 5 with blinding 0. -/
def demoTx : Transaction ℕ :=
  { version := 1, inputs := [],
    outputs := [⟨⟨some 5⟩, ⟨0, 5, 0⟩, 0, 0⟩], fee := 0, timestamp := 0 }

/-- A transaction value used to instantiate merkle statements. -/
def txDemo : Transaction ℕ := ⟨1, [], [], 0, 0⟩

/-- A metrics state with two recorded timestamps 60 seconds apart and
difficulty 1000. -/
def aggDemo : MetricsAggregator := ⟨2, [0, 60], 1000, 0, 100⟩

/-! ## Theorems for the claims -/

/-- C8: Pedersen commitment homomorphism — for all values `v₁, v₂` and
blindings `r₁, r₂` (and for every generator `H = h·B`), adding the
commitments `with_blinding v₁ r₁` and `with_blinding v₂ r₂` yields exactly
the commitment `with_blinding (v₁+v₂) (r₁+r₂)`. -/
theorem pedersen_add_homomorphism (h : Sc) (v₁ v₂ : ℕ) (r₁ r₂ : Sc) :
    (PedersenCommitment.with_blinding h v₁ r₁).add
      (PedersenCommitment.with_blinding h v₂ r₂)
      = .ok (PedersenCommitment.with_blinding h (v₁ + v₂) (r₁ + r₂)) := by
  simp only [PedersenCommitment.add, PedersenCommitment.with_blinding,
    compress, decompress]
  congr 2
  push_cast
  ring_nf

/-- C6: stealth recognition round-trip — for every stealth address (built by
`StealthAddress::new` from view scalar `a` and spend scalar `s`), every
sender scalar `r`, and every point-as-scalar coercion `f` used for the shared
secret, scanning the generated one-time key pair succeeds. -/
theorem stealth_scan_roundtrip (f : Pt → Sc) (a s r : Sc) :
    (StealthAddress.new a s).scan_one_time_key f
      ((StealthAddress.new a s).generate_one_time_key f r).1
      ((StealthAddress.new a s).generate_one_time_key f r).2 = true := by
  simp only [StealthAddress.new, StealthAddress.generate_one_time_key,
    StealthAddress.scan_one_time_key, decide_eq_true_eq]
  have : r * (B * a) = a * (B * r) := by ring
  rw [this]

/-- C4: the proof object returned by `RangeProofWrapper::new` carries its
opening in the clear — whenever `new` succeeds on an in-range value `v` with
sampled blinding `b` (for any behavior of the external bulletproofs prover),
`get_value_blinding` of the returned wrapper is exactly `(v, b)` and the
returned commitment is `with_blinding v b`. -/
theorem rangeproof_new_returns_opening (RP : Type)
    (ps : ℕ → Sc → Except Unit (RP × Pt)) (h : Sc) (v : ℕ) (b : Sc)
    (w : RangeProofWrapper RP) (c : PedersenCommitment)
    (hv : v < 2 ^ 32)
    (hok : RangeProofWrapper.new ps h v b = .ok (w, c)) :
    w.get_value_blinding = (v, b)
      ∧ c = PedersenCommitment.with_blinding h v b := by
  unfold RangeProofWrapper.new at hok
  cases hps : ps v b with
  | error e => rw [hps] at hok; exact absurd hok (by simp)
  | ok pr =>
    rw [hps] at hok
    simp only [Except.ok.injEq, Prod.mk.injEq] at hok
    obtain ⟨hw, hc⟩ := hok
    subst hw hc
    exact ⟨rfl, rfl⟩

/-- C4 witness: `new` on value 5 with blinding 7 under a succeeding prover. -/
theorem rangeproof_new_returns_opening_witness :
    (5 : ℕ) < 2 ^ 32
      ∧ ((⟨0, 5, 7⟩ : RangeProofWrapper ℕ).get_value_blinding = (5, 7)
        ∧ PedersenCommitment.with_blinding 0 5 7
            = PedersenCommitment.with_blinding 0 5 7) :=
  ⟨by norm_num,
    rangeproof_new_returns_opening ℕ psDemo 0 5 7 ⟨0, 5, 7⟩
      (PedersenCommitment.with_blinding 0 5 7) (by norm_num) rfl⟩

/-- C5: refutation of the claimed error kind — `RangeProofWrapper::new` can
never return `CryptoError::InvalidAmount` for an out-of-range value, whatever
the external bulletproofs prover does: its only failure mapping is
`map_err(|_| CryptoError::RangeProofVerification)`.  (Per the bulletproofs
crate, `prove_single` does not reject out-of-range values, so `new(2^32)` in
fact succeeds, contradicting the repo's `test_range_proof_out_of_range`.) -/
theorem rangeproof_new_never_invalid_amount (RP : Type)
    (ps : ℕ → Sc → Except Unit (RP × Pt)) (h : Sc) (b : Sc) (v : ℕ)
    (hv : 2 ^ 32 ≤ v) :
    RangeProofWrapper.new ps h v b ≠ .error CryptoError.InvalidAmount := by
  unfold RangeProofWrapper.new
  cases ps v b <;> simp

/-- C5 witness: at the failing input `v = 2^32`. -/
theorem rangeproof_new_never_invalid_amount_witness :
    2 ^ 32 ≤ 2 ^ 32
      ∧ RangeProofWrapper.new psDemo 0 (2 ^ 32) 0
          ≠ .error CryptoError.InvalidAmount :=
  ⟨le_refl _,
    rangeproof_new_never_invalid_amount ℕ psDemo 0 0 (2 ^ 32) (le_refl _)⟩

/-- C1: `Transaction::verify` does not enforce the balance invariant (the
check is a TODO in the source).  For every generator `H = h·B`: `demoTx` has
no inputs, fee 0, and a single output whose commitment is a genuine Pedersen
commitment to value 5 with blinding 0 (its range proof accepted, as the real
verifier does on an honest proof), yet `verify` returns `Ok(true)` although
`Σ C_in − Σ C_out − fee·B = −5·B ≠ 0`. -/
theorem transaction_verify_omits_balance (h : Sc) :
    demoTx.outputs.map (·.commitment) = [PedersenCommitment.with_blinding h 5 0]
    ∧ Transaction.verify rvAccept demoTx = .ok true
    ∧ (0 : Pt) - ((5 : Sc) * B + 0 * h) - (demoTx.fee : Sc) * B ≠ 0 := by
  refine ⟨?_, by decide, ?_⟩
  · simp [demoTx, PedersenCommitment.with_blinding, compress, B]
  · simp only [demoTx, B, Nat.cast_ofNat, zero_mul, add_zero, mul_one,
      Nat.cast_zero]
    decide

/-- C2: ring signature completeness fails — on the honest ring `[3, 4·B]`
with secret key `4` at real index `1` (ring size 2), the signature produced
by `RingSignature::sign` is rejected by `RingSignature::verify`
(`Ok(false)`), under the concrete transcript instance `chalDemo`: `sign`
binds its first commitment under the label `"L"` and starts the challenge
chain at `real_index+1`, while `verify` recomputes all challenges from
`"point"`-labeled messages starting at index `0`, so the Fiat–Shamir
histories disagree.  This contradicts the repo's own `test_ring_signature`. -/
theorem ring_sign_complete_fails :
    RingSignature.sign chalDemo 4 ⟨some 9⟩ [3, 4] 1 5 [7] = .ok c2DemoSig
    ∧ [(3 : Pt), 4].getD 1 0 = B * 4
    ∧ RingSignature.verify chalDemo c2DemoSig [3, 4] = some (.ok false) := by
  decide

/-- C3: the key image published by the transaction builder is the compressed
one-time public key itself (`KeyImage(output.stealth_pubkey.compress())`),
not `x·Hp(P)` — for every input the builder assembles, whatever the
transcript instance, coercion, address and randomness. -/
theorem builder_key_image_is_compressed_pubkey (RP : Type)
    (F : List TEntry → Sc) (f : Pt → Sc) (addr : StealthAddress) (alpha : Sc)
    (rands : List Sc) (outref : OutputReference) (output : Output RP)
    (inp : Input)
    (hok : buildInput F f addr alpha rands outref output = .ok inp) :
    inp.key_image = KeyImage.mk (compress output.stealth_pubkey) := by
  unfold buildInput at hok
  split at hok
  · exact absurd hok (by simp)
  · simp only [Except.ok.injEq] at hok
    subst hok
    rfl

/-- C3 witness: the concrete assembled input for `outDemo`, whose one-time
public key is `6`; the key image is `some 6`, its compressed encoding. -/
theorem builder_key_image_witness :
    buildInput chalDemo fZero addrDemo 11 [] ⟨[], 0⟩ outDemo = .ok c3DemoInput
    ∧ c3DemoInput.key_image = KeyImage.mk (compress outDemo.stealth_pubkey) :=
  ⟨by decide,
    builder_key_image_is_compressed_pubkey ℕ chalDemo fZero addrDemo 11 []
      ⟨[], 0⟩ outDemo c3DemoInput (by decide)⟩

/-- C7: the merkle root of an empty transaction list is the all-zero hash,
of a single transaction its own hash, of two transactions the hash of the
concatenation of their hashes; and every odd-cardinality level is extended
by a duplicate of its last hash before pairing. -/
theorem merkle_root_cases (RP : Type) (sha : List ℕ → List ℕ)
    (th : Transaction RP → List ℕ) (t t₁ t₂ : Transaction RP)
    (l : List (List ℕ)) :
    calculate_merkle_root sha th [] = some zeroHash
    ∧ calculate_merkle_root sha th [t] = some (th t)
    ∧ calculate_merkle_root sha th [t₁, t₂] = some (sha (th t₁ ++ th t₂))
    ∧ (l.length % 2 = 1 →
        ∃ x, l.getLast? = some x
          ∧ merkleStep sha l = pairUp sha (l ++ [x])) := by
  refine ⟨?_, ?_, ?_, ?_⟩
  · simp [calculate_merkle_root]
  · simp only [calculate_merkle_root, List.isEmpty_cons, List.map_cons,
      List.map_nil, Bool.false_eq_true, if_false]
    rw [merkleLoop]
    simp
  · simp only [calculate_merkle_root, List.isEmpty_cons, List.map_cons,
      List.map_nil, Bool.false_eq_true, if_false]
    rw [merkleLoop]
    simp only [List.length_cons, List.length_nil]
    norm_num [merkleStep, pairUp]
    rw [merkleLoop]
    simp
  · intro hodd
    have hne : l ≠ [] := by
      intro hnil
      rw [hnil] at hodd
      simp at hodd
    obtain ⟨x, hx⟩ := Option.isSome_iff_exists.mp (List.getLast?_isSome.mpr hne)
    exact ⟨x, hx, by simp [merkleStep, hodd, hx]⟩

/-- C7 witness: concrete instances — the identity as `sha`, a constant
transaction hash, and the odd level `[[1], [2], [3]]`. -/
theorem merkle_root_cases_witness :
    calculate_merkle_root (fun bs => bs) (fun _ : Transaction ℕ => [1]) []
        = some zeroHash
    ∧ calculate_merkle_root (fun bs => bs) (fun _ : Transaction ℕ => [1])
        [txDemo] = some [1]
    ∧ calculate_merkle_root (fun bs => bs) (fun _ : Transaction ℕ => [1])
        [txDemo, txDemo] = some ([1] ++ [1])
    ∧ (∃ x, ([[1], [2], [3]] : List (List ℕ)).getLast? = some x
        ∧ merkleStep (fun bs => bs) [[1], [2], [3]]
            = pairUp (fun bs => bs) ([[1], [2], [3]] ++ [x])) :=
  let Hm := merkle_root_cases ℕ (fun bs => bs) (fun _ => [1]) txDemo txDemo
    txDemo [[1], [2], [3]]
  ⟨Hm.1, Hm.2.1, Hm.2.2.1, Hm.2.2.2 (by decide)⟩

/-- C9 counterexample: `RingSignature::verify` panics (models as `none`) on
the adversarial signature whose single inner response vector is empty —
`self.r[i][0]` is an index out of bounds; the outer length check
(`ring.len() == r.len()`) passes. -/
theorem ring_verify_panics_on_empty_inner :
    RingSignature.verify chalDemo ⟨[0], [[]], ⟨some 1⟩⟩ [3] = none := by
  decide

theorem verifyLoop_isSome (F : List TEntry → Sc) (sig : RingSignature)
    (ring : List Pt) :
    ∀ (is : List ℕ) (t : List TEntry),
      (∀ i ∈ is, sig.r.getD i [] ≠ []) →
      ∃ res, verifyLoop F sig ring is t = some res
  | [], _, _ => ⟨.ok true, rfl⟩
  | i :: rest, t, hall => by
    have hne := hall i (by simp)
    simp only [verifyLoop]
    cases hh : (sig.r.getD i []).head? with
    | none => exact absurd (List.head?_eq_none_iff.mp hh) hne
    | some ri =>
      dsimp only
      split
      · exact ⟨_, rfl⟩
      · exact verifyLoop_isSome F sig ring rest _
          (fun j hj => hall j (by simp [hj]))

theorem merkleLoop_ne_nil (sha : List ℕ → List ℕ) :
    ∀ hs : List (List ℕ), hs ≠ [] → merkleLoop sha hs ≠ [] := by
  have key : ∀ (n : ℕ) (hs : List (List ℕ)), hs.length ≤ n → hs ≠ [] →
      merkleLoop sha hs ≠ [] := by
    intro n
    induction n with
    | zero =>
      intro hs hl hne
      cases hs with
      | nil => exact absurd rfl hne
      | cons a as => simp at hl
    | succ n ih =>
      intro hs hl hne
      rw [merkleLoop]
      split
      · next hgt =>
        have hlen := merkleStep_length sha hs hgt
        apply ih
        · omega
        · intro hnil
          rw [hnil] at hlen
          simp only [List.length_nil] at hlen
          omega
      · exact hne
  exact fun hs => key hs.length hs (le_refl _)

theorem calculate_merkle_root_ne_none {RP : Type} (sha : List ℕ → List ℕ)
    (th : Transaction RP → List ℕ) (txs : List (Transaction RP)) :
    calculate_merkle_root sha th txs ≠ none := by
  unfold calculate_merkle_root
  split
  · simp
  · next hne =>
    have h1 : txs.map th ≠ [] := by
      simp only [List.isEmpty_iff] at hne
      simp [hne]
    intro hco
    exact merkleLoop_ne_nil sha _ h1 (List.head?_eq_none_iff.mp hco)

/-- C9 (amended): `RingSignature::verify` returns a value or a typed error on
every signature whose inner response vectors are all non-empty, and
`Block::verify` (which runs the merkle computation and `Transaction::verify`
on every transaction) returns a value or a typed error on every block;
`RingSignature::verify` on a signature with an empty inner vector is the one
panic (see the counterexample). -/
theorem core_verify_no_panic :
    (∀ (F : List TEntry → Sc) (sig : RingSignature) (ring : List Pt),
        (∀ l ∈ sig.r, l ≠ []) →
        ∃ res, RingSignature.verify F sig ring = some res)
    ∧ (∀ (RP : Type) (vs : RP → Pt → Except Unit Unit)
        (sha : List ℕ → List ℕ) (th : Transaction RP → List ℕ) (b : Block RP),
        ∃ res, Block.verify vs sha th b = some res) := by
  constructor
  · intro F sig ring hr
    unfold RingSignature.verify
    split
    · exact ⟨_, rfl⟩
    · next hlen =>
      push_neg at hlen
      apply verifyLoop_isSome
      intro i hi
      have hilt : i < sig.r.length := by
        have := List.mem_range.mp hi
        omega
      have hmem : sig.r.getD i [] ∈ sig.r := by
        rw [List.getD_eq_getElem sig.r [] hilt]
        exact List.getElem_mem hilt
      exact hr _ hmem
  · intro RP vs sha th b
    unfold Block.verify
    cases hroot : calculate_merkle_root sha th b.transactions with
    | none => exact absurd hroot (calculate_merkle_root_ne_none sha th _)
    | some root =>
      dsimp only
      split
      · exact ⟨_, rfl⟩
      · exact ⟨_, rfl⟩

/-- C9 witness: a well-formed one-element signature and an empty block. -/
theorem core_verify_no_panic_witness :
    (∃ res, RingSignature.verify chalDemo ⟨[0], [[0]], ⟨none⟩⟩ [1] = some res)
    ∧ (∃ res, Block.verify rvAccept (fun bs => bs)
        (fun _ : Transaction ℕ => [1]) ⟨⟨1, [], zeroHash, 0, 0, 0, 0⟩, []⟩
          = some res) :=
  ⟨core_verify_no_panic.1 chalDemo ⟨[0], [[0]], ⟨none⟩⟩ [1] (by decide),
    core_verify_no_panic.2 ℕ rvAccept (fun bs => bs) (fun _ => [1])
      ⟨⟨1, [], zeroHash, 0, 0, 0, 0⟩, []⟩⟩

/-- C10 counterexample: with two timestamps 60 seconds apart and difficulty
1000, `get_metrics` reports `1000 · (2^32 / 60) = 71582788000`, not the
full-product quotient `1000 · 2^32 / 60 = 71582788266`. -/
theorem hashrate_not_full_product :
    2 ≤ aggDemo.recent_blocks.length
    ∧ aggDemo.get_metrics.avg_block_time = 60
    ∧ aggDemo.get_metrics.estimated_hashrate
        ≠ aggDemo.current_difficulty * 2 ^ 32
            / aggDemo.get_metrics.avg_block_time := by
  decide

/-- C10 (amended): with at least two recent timestamps and a nonzero average
block time, the reported hashrate is `difficulty · (2^32 / avg)` — the
integer division of `2^32` by the average block time is performed before the
multiplication by the difficulty. -/
theorem hashrate_formula (m : MetricsAggregator)
    (h2 : 2 ≤ m.recent_blocks.length)
    (hnz : m.get_metrics.avg_block_time ≠ 0) :
    m.get_metrics.estimated_hashrate
      = m.current_difficulty * (2 ^ 32 / m.get_metrics.avg_block_time) := by
  simp only [MetricsAggregator.get_metrics] at hnz ⊢
  simp only [if_pos h2] at hnz ⊢
  rw [if_pos hnz]

/-- C10 witness: the amended formula at the concrete metrics state. -/
theorem hashrate_formula_witness :
    2 ≤ aggDemo.recent_blocks.length
    ∧ aggDemo.get_metrics.estimated_hashrate
        = aggDemo.current_difficulty
            * (2 ^ 32 / aggDemo.get_metrics.avg_block_time) :=
  ⟨by decide, hashrate_formula aggDemo (by decide) (by decide)⟩

end Idia
